import Mathlib

set_option maxRecDepth 10000

/-!
Verification development for the practice-buddy audio analysis pipeline
(`src/audio_processing.py`, `src/handlers/analysis.py`).

The numeric pipeline is shallowly embedded: the library calls (librosa onset
detection, YIN pitch estimation) are treated as oracles whose outputs become
the inputs of the embedded functions, while every line of the repository's own
arithmetic and control flow is translated faithfully.  Python floats are given
exact rational (`ℚ`) or real (`ℝ`) semantics.
-/

/-! ## Beat Detector: `detect_metronome` (src/audio_processing.py, lines 36-131)

The librosa calls in lines 40-70 produce the list `onset_times` of candidate
onset timestamps; everything from line 72 on is the repository's own
arithmetic and is embedded below as a function of that candidate list.
-/

/-- Result record of `detect_metronome` (the dictionary literals at
lines 73-79 and 119-126; the debug-only fields `onset_env` and
`all_onsets` are omitted). -/
structure MetroResult where
  success : Bool
  num_beats : ℕ
  tempo : ℚ
  beat_times : List ℚ
deriving Repr, DecidableEq

/-- `np.diff`: consecutive differences (line 82 and line 115). -/
def diffs (l : List ℚ) : List ℚ :=
  List.zipWith (fun a b => b - a) l l.tail

/-- `np.median`: middle element of the sorted data for odd length, mean of
the two middle elements for even length (line 116). -/
def npMedian (l : List ℚ) : ℚ :=
  if l.length % 2 = 1 then (l.insertionSort (· ≤ ·)).getD (l.length / 2) 0
  else ((l.insertionSort (· ≤ ·)).getD (l.length / 2 - 1) 0 +
    (l.insertionSort (· ≤ ·)).getD (l.length / 2) 0) / 2

/-- Minimum of a data list (`np.histogram` range lower edge). -/
def listMin (l : List ℚ) : ℚ := l.foldr min (l.headD 0)

/-- Maximum of a data list (`np.histogram` range upper edge). -/
def listMax (l : List ℚ) : ℚ := l.foldr max (l.headD 0)

/-- The 51 bin edges of `np.histogram(intervals, bins=50)` (line 86):
`np.linspace(lo, hi, 51)`. -/
def histEdges (lo hi : ℚ) : List ℚ :=
  (List.range 51).map (fun i => lo + (hi - lo) * i / 50)

/-- The 50 bin counts of `np.histogram(intervals, bins=50)` (line 86): bins
are half-open `[e_i, e_i+1)` except the last, which is closed. -/
def histCounts (data : List ℚ) (edges : List ℚ) : List ℕ :=
  (List.range 50).map (fun i =>
    let lo := edges.getD i 0
    let hi := edges.getD (i + 1) 0
    (data.filter (fun x =>
      decide (lo ≤ x) && (if i = 49 then decide (x ≤ hi) else decide (x < hi)))).length)

/-- `np.argmax` (line 87): index of the first occurrence of the maximum. -/
def argmaxFirst (l : List ℕ) : ℕ :=
  (l.enum.foldl (fun best p => if best.2 < p.2 then p else best) (0, 0)).1

/-- Lines 82-88: histogram clustering of the consecutive onset intervals;
the dominant interval is the midpoint of the modal bin.  When all intervals
are equal, `np.histogram` widens the range by 0.5 on each side. -/
def dominantIntervalOf (onset_times : List ℚ) : ℚ :=
  let intervals := diffs onset_times
  let mn := listMin intervals
  let mx := listMax intervals
  let lo := if mn = mx then mn - 1/2 else mn
  let hi := if mn = mx then mx + 1/2 else mx
  let edges := histEdges lo hi
  let hist := histCounts intervals edges
  let dominant_bin := argmaxFirst hist
  (edges.getD dominant_bin 0 + edges.getD (dominant_bin + 1) 0) / 2

/-- The periodic-pattern filtering loop of lines 101-109: keep an onset if it
is within the tolerance of the expected next beat; if it is beyond the
tolerance on the late side, keep it anyway and reset the expectation;
otherwise drop it. -/
def filter_onsets (expected tolerance dominant_interval : ℚ) :
    List ℚ → List ℚ
  | [] => []
  | t :: rest =>
    if |t - expected| ≤ tolerance then
      t :: filter_onsets (t + dominant_interval) tolerance dominant_interval rest
    else if expected + tolerance < t then
      t :: filter_onsets (t + dominant_interval) tolerance dominant_interval rest
    else
      filter_onsets expected tolerance dominant_interval rest

/-- Lines 95-111: the kept beat list starts with the first onset, then the
filtering loop walks the remaining onsets with tolerance 15% of the dominant
interval. -/
def filteredTimes (onset_times : List ℚ) : List ℚ :=
  let d := dominantIntervalOf onset_times
  let t0 := onset_times.headD 0
  t0 :: filter_onsets (t0 + d) (d * (15/100)) d onset_times.tail

/-- `detect_metronome`, lines 72-126, as a function of the candidate onset
times produced by the lenient librosa onset detection of lines 50-70.
Fewer than 3 candidates short-circuit to a zero-tempo success (lines 72-79);
otherwise the histogram estimate gives a provisional tempo (line 91), the
onsets are filtered (lines 95-111), and the tempo is recomputed from the
median kept interval whenever at least two onsets were kept (lines 113-117). -/
def detect_metronome (onset_times : List ℚ) : MetroResult :=
  if onset_times.length < 3 then
    { success := true
      num_beats := onset_times.length
      tempo := 0
      beat_times := onset_times }
  else
    let d := dominantIntervalOf onset_times
    let tempo0 := if 0 < d then 60 / d else 0
    let filtered := filteredTimes onset_times
    let tempo :=
      if 1 < filtered.length then
        let med := npMedian (diffs filtered)
        if 0 < med then 60 / med else 0
      else tempo0
    { success := true
      num_beats := filtered.length
      tempo := tempo
      beat_times := filtered }

/-! ### Helper lemmas for the Beat Detector -/

theorem filter_onsets_sublist (e tol d : ℚ) :
    ∀ l : List ℚ, List.Sublist (filter_onsets e tol d l) l := by
  intro l
  induction l generalizing e with
  | nil => simp [filter_onsets]
  | cons t rest ih =>
    rw [filter_onsets]
    split
    · exact (ih (t + d)).cons₂ t
    · split
      · exact (ih (t + d)).cons₂ t
      · exact (ih e).cons t

theorem filteredTimes_sublist (t0 : ℚ) (rest : List ℚ) :
    List.Sublist (filteredTimes (t0 :: rest)) (t0 :: rest) := by
  unfold filteredTimes
  simpa using (filter_onsets_sublist _ _ _ rest).cons₂ t0

theorem detect_metronome_beat_times (onset_times : List ℚ) :
    (detect_metronome onset_times).beat_times =
      if onset_times.length < 3 then onset_times else filteredTimes onset_times := by
  unfold detect_metronome
  split <;> rfl

theorem detect_metronome_beat_times_sublist (onset_times : List ℚ) :
    List.Sublist (detect_metronome onset_times).beat_times onset_times := by
  rw [detect_metronome_beat_times]
  split
  · exact List.Sublist.refl _
  · rename_i h
    cases onset_times with
    | nil => simp at h
    | cons t0 rest => exact filteredTimes_sublist t0 rest

/-- C2: for strictly increasing onset candidates (which is what the librosa
onset detector returns: distinct, ordered peak frames), the beat times
returned by `detect_metronome` are strictly increasing. -/
theorem detect_metronome_strictly_increasing (onset_times : List ℚ)
    (hs : onset_times.Pairwise (· < ·)) :
    (detect_metronome onset_times).beat_times.Pairwise (· < ·) :=
  hs.sublist (detect_metronome_beat_times_sublist onset_times)

theorem detect_metronome_strictly_increasing_w :
    (detect_metronome [0, 1, 2]).beat_times.Pairwise (· < ·) :=
  detect_metronome_strictly_increasing [0, 1, 2] (by decide)

theorem diffs_cons_cons (a b : ℚ) (u : List ℚ) :
    diffs (a :: b :: u) = (b - a) :: diffs (b :: u) := rfl

theorem diffs_pos {l : List ℚ} (hl : l.Pairwise (· < ·)) :
    ∀ x ∈ diffs l, 0 < x := by
  induction l with
  | nil => intro x hx; simp [diffs] at hx
  | cons a t ih =>
    cases t with
    | nil => intro x hx; simp [diffs] at hx
    | cons b u =>
      intro x hx
      rw [diffs_cons_cons, List.mem_cons] at hx
      rcases hx with rfl | hx
      · have hab : a < b := (List.pairwise_cons.mp hl).1 b (by simp)
        linarith
      · exact ih hl.of_cons x hx

theorem diffs_length (l : List ℚ) : (diffs l).length = l.length - 1 := by
  cases l with
  | nil => simp [diffs]
  | cons a t => simp [diffs]

theorem getD_pos_of_forall_pos {s : List ℚ} (hspos : ∀ x ∈ s, 0 < x)
    {i : ℕ} (h : i < s.length) : 0 < s.getD i 0 := by
  rw [List.getD_eq_getElem s 0 h]
  exact hspos _ (List.getElem_mem h)

theorem npMedian_pos {l : List ℚ} (hne : l ≠ []) (hpos : ∀ x ∈ l, 0 < x) :
    0 < npMedian l := by
  have hperm := List.perm_insertionSort (· ≤ ·) l
  have hlen : (l.insertionSort (· ≤ ·)).length = l.length := hperm.length_eq
  have hspos : ∀ x ∈ l.insertionSort (· ≤ ·), 0 < x :=
    fun x hx => hpos x (hperm.mem_iff.mp hx)
  have hl0 : 0 < l.length := List.length_pos.mpr hne
  unfold npMedian
  split
  · exact getD_pos_of_forall_pos hspos (by omega)
  · have h1 : 0 < (l.insertionSort (· ≤ ·)).getD (l.length / 2 - 1) 0 :=
      getD_pos_of_forall_pos hspos (by omega)
    have h2 : 0 < (l.insertionSort (· ≤ ·)).getD (l.length / 2) 0 :=
      getD_pos_of_forall_pos hspos (by omega)
    linarith

theorem detect_metronome_tempo_eq (onset_times : List ℚ)
    (h : ¬ onset_times.length < 3) :
    (detect_metronome onset_times).tempo =
      if 1 < (filteredTimes onset_times).length then
        (if 0 < npMedian (diffs (filteredTimes onset_times)) then
          60 / npMedian (diffs (filteredTimes onset_times)) else 0)
      else (if 0 < dominantIntervalOf onset_times then
        60 / dominantIntervalOf onset_times else 0) := by
  unfold detect_metronome
  rw [if_neg h]

/-- C3 (counterexample): with exactly two onset candidates the detector
returns those two times as beats with tempo 0, which differs from
60 divided by the median consecutive difference (here 60). -/
theorem detect_metronome_tempo_median_ce :
    (detect_metronome [0, 1]).beat_times.length = 2 ∧
    (detect_metronome [0, 1]).tempo ≠
      60 / npMedian (diffs (detect_metronome [0, 1]).beat_times) := by
  with_unfolding_all decide

/-- C3 (amended): when at least 3 strictly increasing onset candidates are
found, so that the periodic filtering path runs, a returned beat sequence
with at least 2 beats has tempo exactly 60 divided by the median of its
consecutive differences. -/
theorem detect_metronome_tempo_median (onset_times : List ℚ)
    (hs : onset_times.Pairwise (· < ·))
    (h3 : 3 ≤ onset_times.length)
    (h2 : 2 ≤ (detect_metronome onset_times).beat_times.length) :
    (detect_metronome onset_times).tempo =
      60 / npMedian (diffs (detect_metronome onset_times).beat_times) := by
  have hnlt : ¬ onset_times.length < 3 := by omega
  have hbt : (detect_metronome onset_times).beat_times = filteredTimes onset_times := by
    rw [detect_metronome_beat_times, if_neg hnlt]
  have hFs : (filteredTimes onset_times).Pairwise (· < ·) := by
    rw [← hbt]
    exact hs.sublist (detect_metronome_beat_times_sublist onset_times)
  have h2' : 1 < (filteredTimes onset_times).length := by rw [hbt] at h2; omega
  have hdne : diffs (filteredTimes onset_times) ≠ [] := by
    have := diffs_length (filteredTimes onset_times)
    intro hnil
    rw [hnil] at this
    simp at this
    omega
  have hmed : 0 < npMedian (diffs (filteredTimes onset_times)) :=
    npMedian_pos hdne (diffs_pos hFs)
  rw [detect_metronome_tempo_eq onset_times hnlt, if_pos h2', if_pos hmed, hbt]

theorem detect_metronome_tempo_median_w :
    ([0, 1, 2, 3] : List ℚ).Pairwise (· < ·) ∧
    3 ≤ ([0, 1, 2, 3] : List ℚ).length ∧
    2 ≤ (detect_metronome [0, 1, 2, 3]).beat_times.length ∧
    (detect_metronome [0, 1, 2, 3]).tempo =
      60 / npMedian (diffs (detect_metronome [0, 1, 2, 3]).beat_times) :=
  ⟨by decide, by decide, by with_unfolding_all decide,
    detect_metronome_tempo_median [0, 1, 2, 3] (by decide) (by decide)
      (by with_unfolding_all decide)⟩

/-- C4: fewer than 3 onset candidates short-circuit to a success result with
tempo 0 whose beat times are exactly the candidates. -/
theorem detect_metronome_few_candidates (onset_times : List ℚ)
    (h : onset_times.length < 3) :
    detect_metronome onset_times =
      { success := true
        num_beats := onset_times.length
        tempo := 0
        beat_times := onset_times } := by
  unfold detect_metronome
  rw [if_pos h]

theorem detect_metronome_few_candidates_w :
    ([0, 1] : List ℚ).length < 3 ∧
    detect_metronome [0, 1] =
      { success := true, num_beats := 2, tempo := 0, beat_times := [0, 1] } :=
  ⟨by decide, by rw [detect_metronome_few_candidates [0, 1] (by decide)]; rfl⟩

/-! ## Pitch Tracker: `extract_pitch` (src/audio_processing.py, lines 134-197)

The YIN call of lines 141-147 is the library oracle: it either raises (the
`except` of lines 193-197 turns that into a failure record) or produces the
per-frame `f0` series in which undetected frames are NaN, embedded as
`List (Option ℚ)` with `none` for NaN.  Lines 156-171 build `f0_clean` by
writing `np.interp` values into the NaN positions whenever at least one
valid frame exists.
-/

/-- The pairs `(valid_indices, f0_clean[valid_indices])` of lines 164-170:
positions of defined frames (as rational x-coordinates) with their values,
in index order. -/
def validPtsFrom (k : ℕ) : List (Option ℚ) → List (ℚ × ℚ)
  | [] => []
  | none :: rest => validPtsFrom (k + 1) rest
  | some v :: rest => ((k : ℚ), v) :: validPtsFrom (k + 1) rest

/-- Scanning part of `np.interp`: the current left node is `(x0, y0)`; the
query `x` is known to satisfy `x0 < x`.  Past the last node the right value
is held (numpy clamps). -/
def npInterpGo (x0 y0 x : ℚ) : List (ℚ × ℚ) → ℚ
  | [] => y0
  | (x1, y1) :: rest =>
    if x ≤ x1 then y0 + (y1 - y0) * (x - x0) / (x1 - x0)
    else npInterpGo x1 y1 x rest

/-- `np.interp(x, xp, fp)` for a single query `x` against the nodes `pts`
(strictly increasing x-coordinates): linear interpolation between the two
neighbouring nodes, clamped to the first/last value outside the range. -/
def npInterp (x : ℚ) : List (ℚ × ℚ) → ℚ
  | [] => 0
  | (x0, y0) :: rest => if x ≤ x0 then y0 else npInterpGo x0 y0 x rest

/-- The writeback `f0_clean[nan_mask] = np.interp(...)` of lines 167-171:
defined frames keep their value, NaN frames at index `k + i` receive the
interpolated value. -/
def cleanFrom (pts : List (ℚ × ℚ)) (k : ℕ) : List (Option ℚ) → List (Option ℚ)
  | [] => []
  | some v :: rest => some v :: cleanFrom pts (k + 1) rest
  | none :: rest => some (npInterp (k : ℚ) pts) :: cleanFrom pts (k + 1) rest

/-- Lines 156-171: `f0_clean` starts as a copy of `f0`; if any valid frame
exists the NaN positions are interpolated, otherwise the series is left
untouched (all NaN). -/
def f0_clean (f0 : List (Option ℚ)) : List (Option ℚ) :=
  if validPtsFrom 0 f0 = [] then f0 else cleanFrom (validPtsFrom 0 f0) 0 f0

/-- Result record of `extract_pitch` (lines 185-197); of the DataFrame only
the gap-filled series is retained, along with the NaN diagnostics. -/
structure PitchResult where
  success : Bool
  error : Option String
  f0 : List (Option ℚ)
  nan_count : ℕ
deriving Repr, DecidableEq

/-- `extract_pitch`, lines 134-197, as a function of the outcome of the YIN
library call: an exception anywhere in the body is caught by the handler of
lines 193-197 and returned as a failure record; otherwise the NaN gaps of
the returned series are filled. -/
def extract_pitch (yin : Except String (List (Option ℚ))) : PitchResult :=
  match yin with
  | .error e => { success := false, error := some e, f0 := [], nan_count := 0 }
  | .ok f0 =>
    { success := true
      error := none
      f0 := f0_clean f0
      nan_count := (f0.filter (fun o => o.isNone)).length }

/-! ### Helper lemmas for the gap filling -/

theorem validPtsFrom_eq_nil (k : ℕ) (f0 : List (Option ℚ)) :
    validPtsFrom k f0 = [] ↔ ∀ o ∈ f0, o = none := by
  induction f0 generalizing k with
  | nil => simp [validPtsFrom]
  | cons o rest ih =>
    cases o with
    | none => simp [validPtsFrom, ih]
    | some v => simp [validPtsFrom]

theorem cleanFrom_ne_none (pts : List (ℚ × ℚ)) (k : ℕ) (f0 : List (Option ℚ)) :
    ∀ o ∈ cleanFrom pts k f0, o ≠ none := by
  induction f0 generalizing k with
  | nil => simp [cleanFrom]
  | cons o rest ih =>
    cases o with
    | none =>
      simp only [cleanFrom, List.mem_cons]
      rintro o (rfl | ho)
      · simp
      · exact ih (k + 1) o ho
    | some v =>
      simp only [cleanFrom, List.mem_cons]
      rintro o (rfl | ho)
      · simp
      · exact ih (k + 1) o ho

theorem cleanFrom_getD (pts : List (ℚ × ℚ)) (f0 : List (Option ℚ)) (k i : ℕ)
    (hi : i < f0.length) :
    (cleanFrom pts k f0).getD i none =
      match f0.getD i none with
      | some v => some v
      | none => some (npInterp ((k + i : ℕ) : ℚ) pts) := by
  induction f0 generalizing k i with
  | nil => simp at hi
  | cons o rest ih =>
    cases i with
    | zero =>
      cases o with
      | none => simp [cleanFrom]
      | some v => simp [cleanFrom]
    | succ j =>
      have hj : j < rest.length := by simpa using hi
      cases o with
      | none =>
        have := ih (k + 1) j hj
        simpa [cleanFrom, Nat.add_assoc, Nat.add_comm 1 j] using this
      | some v =>
        have := ih (k + 1) j hj
        simpa [cleanFrom, Nat.add_assoc, Nat.add_comm 1 j] using this

theorem getD_some_lt_length {f0 : List (Option ℚ)} {r : ℕ} {y : ℚ}
    (h : f0.getD r none = some y) : r < f0.length := by
  by_contra hle
  push_neg at hle
  rw [List.getD_eq_default _ _ hle] at h
  simp at h

theorem validPtsFrom_first (f0 : List (Option ℚ)) (k r : ℕ) (yr : ℚ)
    (hr : f0.getD r none = some yr) (hgap : ∀ j, j < r → f0.getD j none = none) :
    ∃ S, validPtsFrom k f0 = (((k + r : ℕ) : ℚ), yr) :: S := by
  induction f0 generalizing k r with
  | nil => have := getD_some_lt_length hr; simp at this
  | cons o rest ih =>
    cases r with
    | zero =>
      have ho : o = some yr := by simpa using hr
      subst ho
      exact ⟨validPtsFrom (k + 1) rest, by simp [validPtsFrom]⟩
    | succ r' =>
      have h0 : o = none := by simpa using hgap 0 (Nat.succ_pos r')
      subst h0
      have hr' : rest.getD r' none = some yr := by simpa using hr
      have hgap' : ∀ j, j < r' → rest.getD j none = none := fun j hj => by
        simpa using hgap (j + 1) (by omega)
      obtain ⟨S, hS⟩ := ih (k + 1) r' hr' hgap'
      refine ⟨S, ?_⟩
      have harith : (k + 1) + r' = k + (r' + 1) := by omega
      rw [show validPtsFrom k (none :: rest) = validPtsFrom (k + 1) rest from rfl,
        hS, harith]

theorem validPtsFrom_decomp (f0 : List (Option ℚ)) (k l r : ℕ) (yl yr : ℚ)
    (hlr : l < r)
    (hl : f0.getD l none = some yl) (hr : f0.getD r none = some yr)
    (hgap : ∀ j, l < j → j < r → f0.getD j none = none) :
    ∃ P S, validPtsFrom k f0 =
        P ++ (((k + l : ℕ) : ℚ), yl) :: (((k + r : ℕ) : ℚ), yr) :: S ∧
      ∀ p ∈ P, p.1 < ((k + l : ℕ) : ℚ) := by
  induction f0 generalizing k l r with
  | nil => have := getD_some_lt_length hl; simp at this
  | cons o rest ih =>
    obtain ⟨r', rfl⟩ : ∃ r', r = r' + 1 := ⟨r - 1, by omega⟩
    have hr' : rest.getD r' none = some yr := by simpa using hr
    cases l with
    | zero =>
      have ho : o = some yl := by simpa using hl
      subst ho
      have hgap' : ∀ j, j < r' → rest.getD j none = none := fun j hj => by
        simpa using hgap (j + 1) (by omega) (by omega)
      obtain ⟨S, hS⟩ := validPtsFrom_first rest (k + 1) r' yr hr' hgap'
      refine ⟨[], S, ?_, by simp⟩
      have harith : (k + 1) + r' = k + (r' + 1) := by omega
      rw [show validPtsFrom k (some yl :: rest) =
        ((k : ℚ), yl) :: validPtsFrom (k + 1) rest from rfl, hS, harith]
      simp
    | succ l' =>
      have hl' : rest.getD l' none = some yl := by simpa using hl
      have hgap' : ∀ j, l' < j → j < r' → rest.getD j none = none :=
        fun j h1 h2 => by simpa using hgap (j + 1) (by omega) (by omega)
      obtain ⟨P, S, hPS, hPlt⟩ := ih (k + 1) l' r' (by omega) hl' hr'
        hgap'
      have ha1 : (k + 1) + l' = k + (l' + 1) := by omega
      have ha2 : (k + 1) + r' = k + (r' + 1) := by omega
      cases o with
      | none =>
        refine ⟨P, S, ?_, ?_⟩
        · rw [show validPtsFrom k (none :: rest) = validPtsFrom (k + 1) rest from rfl,
            hPS, ha1, ha2]
        · intro p hp
          have := hPlt p hp
          rwa [ha1] at this
      | some v =>
        refine ⟨((k : ℚ), v) :: P, S, ?_, ?_⟩
        · rw [show validPtsFrom k (some v :: rest) =
            ((k : ℚ), v) :: validPtsFrom (k + 1) rest from rfl, hPS, ha1, ha2]
          rfl
        · intro p hp
          rcases List.mem_cons.mp hp with rfl | hp'
          · show (k : ℚ) < ((k + (l' + 1) : ℕ) : ℚ)
            exact_mod_cast by omega
          · have := hPlt p hp'
            rwa [ha1] at this

theorem npInterpGo_skip (i xl yl xr yr : ℚ) (S : List (ℚ × ℚ)) :
    ∀ (P : List (ℚ × ℚ)) (x0 y0 : ℚ), (∀ p ∈ P, p.1 < i) → xl < i → i ≤ xr →
    npInterpGo x0 y0 i (P ++ (xl, yl) :: (xr, yr) :: S) =
      yl + (yr - yl) * (i - xl) / (xr - xl) := by
  intro P
  induction P with
  | nil =>
    intro x0 y0 _ hxl hxr
    rw [List.nil_append, npInterpGo, if_neg (not_le.mpr hxl), npInterpGo, if_pos hxr]
  | cons p P ih =>
    intro x0 y0 hP hxl hxr
    obtain ⟨px, py⟩ := p
    rw [List.cons_append, npInterpGo, if_neg (not_le.mpr (hP (px, py) (by simp)))]
    exact ih px py (fun q hq => hP q (List.mem_cons_of_mem _ hq)) hxl hxr

theorem npInterp_adj (i xl yl xr yr : ℚ) (P S : List (ℚ × ℚ))
    (hP : ∀ p ∈ P, p.1 < i) (hxl : xl < i) (hxr : i ≤ xr) :
    npInterp i (P ++ (xl, yl) :: (xr, yr) :: S) =
      yl + (yr - yl) * (i - xl) / (xr - xl) := by
  cases P with
  | nil =>
    rw [List.nil_append, npInterp, if_neg (not_le.mpr hxl), npInterpGo, if_pos hxr]
  | cons p P2 =>
    obtain ⟨px, py⟩ := p
    rw [List.cons_append, npInterp, if_neg (not_le.mpr (hP (px, py) (by simp)))]
    exact npInterpGo_skip i xl yl xr yr S P2 px py
      (fun q hq => hP q (List.mem_cons_of_mem _ hq)) hxl hxr

/-- C9: whenever not all raw pitch frames are undefined, the gap-filled
series of `extract_pitch` has no undefined entries, and every undefined
frame strictly between two defined frames with only undefined frames in
between receives the linear interpolation of those two neighbours. -/
theorem extract_pitch_gapfill (f0 : List (Option ℚ))
    (hne : ¬ ∀ o ∈ f0, o = none) :
    (∀ o ∈ f0_clean f0, o ≠ none) ∧
    (∀ l i r : ℕ, ∀ yl yr : ℚ, l < i → i < r →
      f0.getD l none = some yl → f0.getD r none = some yr →
      (∀ j, l < j → j < r → f0.getD j none = none) →
      (f0_clean f0).getD i none =
        some (yl + (yr - yl) * ((i : ℚ) - (l : ℚ)) / ((r : ℚ) - (l : ℚ)))) := by
  have hpts : ¬ validPtsFrom 0 f0 = [] :=
    fun h => hne ((validPtsFrom_eq_nil 0 f0).mp h)
  constructor
  · intro o ho
    unfold f0_clean at ho
    rw [if_neg hpts] at ho
    exact cleanFrom_ne_none _ _ _ o ho
  · intro l i r yl yr hli hir hl hr hgap
    have hrlen : r < f0.length := getD_some_lt_length hr
    have hilen : i < f0.length := by omega
    have hinone : f0.getD i none = none := hgap i hli hir
    obtain ⟨P, S, hPS, hPlt⟩ := validPtsFrom_decomp f0 0 l r yl yr (by omega) hl hr hgap
    unfold f0_clean
    rw [if_neg hpts, cleanFrom_getD _ _ 0 i hilen, hinone]
    show some (npInterp ((0 + i : ℕ) : ℚ) (validPtsFrom 0 f0)) = _
    rw [hPS, npInterp_adj ((0 + i : ℕ) : ℚ) _ yl _ yr P S
      (fun p hp => lt_of_lt_of_le (hPlt p hp) (by exact_mod_cast by omega))
      (by exact_mod_cast by omega) (by exact_mod_cast by omega)]
    congr 1
    push_cast
    ring

theorem extract_pitch_gapfill_w :
    (¬ ∀ o ∈ ([some 1, none, some 2] : List (Option ℚ)), o = none) ∧
    ((∀ o ∈ f0_clean [some 1, none, some 2], o ≠ none) ∧
      (∀ l i r : ℕ, ∀ yl yr : ℚ, l < i → i < r →
        ([some 1, none, some 2] : List (Option ℚ)).getD l none = some yl →
        ([some 1, none, some 2] : List (Option ℚ)).getD r none = some yr →
        (∀ j, l < j → j < r →
          ([some 1, none, some 2] : List (Option ℚ)).getD j none = none) →
        (f0_clean [some 1, none, some 2]).getD i none =
          some (yl + (yr - yl) * ((i : ℚ) - (l : ℚ)) / ((r : ℚ) - (l : ℚ))))) :=
  ⟨by decide, extract_pitch_gapfill [some 1, none, some 2] (by decide)⟩

/-- C10 (counterexample): an empty waveform produces an all-zero onset
envelope, hence no onset candidates, and the Beat Detector then returns a
success record with tempo 0 and no beats, not a failure. -/
theorem empty_waveform_beat_ce :
    (detect_metronome []).success = true ∧
    (detect_metronome []).tempo = 0 ∧
    (detect_metronome []).beat_times = [] :=
  ⟨rfl, rfl, rfl⟩

/-- C10 (amended): on no onset candidates (the empty waveform) the Beat
Detector returns a degenerate success record with tempo 0 and no beats; the
Pitch Tracker never raises past its boundary, returning a plain tagged
failure record (success false with an error message, with no error-kind
classification) whenever its internal library computation raises, and a
success record otherwise. -/
theorem empty_waveform_amended :
    detect_metronome [] =
      { success := true, num_beats := 0, tempo := 0, beat_times := [] } ∧
    (∀ e : String, extract_pitch (Except.error e) =
      { success := false, error := some e, f0 := [], nan_count := 0 }) ∧
    (∀ f0, (extract_pitch (Except.ok f0)).success = true) :=
  ⟨rfl, fun _ => rfl, fun _ => rfl⟩

/-! ## Note Identifier: `identify_notes` (src/audio_processing.py, lines 200-246)

The per-frame columns of lines 211-226 are real-valued functions of the
frame frequency.  `pandas.Series.round` rounds half to even (IEEE banker's
rounding), embedded as `roundHalfEven`.
-/

/-- Round half to even, the rounding used by `df['midi_float'].round()` at
line 214: ties (fractional part exactly one half) go to the even
neighbour, all other values to the nearest integer. -/
noncomputable def roundHalfEven (x : ℝ) : ℤ :=
  if Int.fract x = 1/2 then (if 2 ∣ ⌊x⌋ then ⌊x⌋ else ⌊x⌋ + 1) else round x

/-- Line 211: `midi_float = 69 + 12 * log2(f0 / 440)`. -/
noncomputable def midi_float (f0 : ℝ) : ℝ := 69 + 12 * Real.logb 2 (f0 / 440)

/-- Line 214: `midi_rounded = midi_float.round().astype(int)`. -/
noncomputable def midi_rounded (f0 : ℝ) : ℤ := roundHalfEven (midi_float f0)

/-- Line 218: `cents_off = (midi_float - midi_rounded) * 100`. -/
noncomputable def cents_off (f0 : ℝ) : ℝ :=
  (midi_float f0 - (midi_rounded f0 : ℝ)) * 100

/-- Line 226: `ideal_freq = 440 * 2 ** ((midi_rounded - 69) / 12)` as a
function of the integer MIDI number. -/
noncomputable def ideal_freq (m : ℤ) : ℝ :=
  440 * (2 : ℝ) ^ (((m : ℝ) - 69) / 12)

theorem roundHalfEven_intCast (m : ℤ) : roundHalfEven (m : ℝ) = m := by
  unfold roundHalfEven
  rw [Int.fract_intCast, if_neg (by norm_num), round_intCast]

theorem floor_add_half (x : ℝ) (hf : Int.fract x = 1/2) : x = (⌊x⌋ : ℝ) + 1/2 := by
  have h := Int.floor_add_fract x
  rw [hf] at h
  linarith

theorem sub_roundHalfEven_bounds (x : ℝ) :
    -(1/2) ≤ x - roundHalfEven x ∧ x - roundHalfEven x ≤ 1/2 := by
  unfold roundHalfEven
  split
  · rename_i hf
    have hx := floor_add_half x hf
    split
    · push_cast
      constructor <;> linarith
    · push_cast
      constructor <;> linarith
  · have h := abs_le.mp (abs_sub_round x)
    exact ⟨h.1, h.2⟩

theorem roundHalfEven_half_even {x : ℝ} (hf : Int.fract x = 1/2)
    (he : 2 ∣ ⌊x⌋) : x - roundHalfEven x = 1/2 := by
  have hx := floor_add_half x hf
  unfold roundHalfEven
  rw [if_pos hf, if_pos he]
  linarith

theorem roundHalfEven_half_odd {x : ℝ} (hf : Int.fract x = 1/2)
    (ho : ¬ 2 ∣ ⌊x⌋) : x - roundHalfEven x = -(1/2) := by
  have hx := floor_add_half x hf
  unfold roundHalfEven
  rw [if_pos hf, if_neg ho]
  push_cast
  linarith

theorem midi_float_ideal_freq (m : ℤ) : midi_float (ideal_freq m) = (m : ℝ) := by
  unfold midi_float ideal_freq
  rw [mul_div_cancel_left₀ _ (by norm_num : (440 : ℝ) ≠ 0),
    Real.logb_rpow (by norm_num) (by norm_num)]
  ring

/-- C5: recomputing the continuous MIDI number from the ideal frequency of
an integer MIDI number and rounding it the way the Note Identifier does
returns the same integer, for the whole claimed range. -/
theorem identify_notes_roundtrip (m : ℤ) (h1 : 21 ≤ m) (h2 : m ≤ 108) :
    midi_rounded (ideal_freq m) = m := by
  unfold midi_rounded
  rw [midi_float_ideal_freq, roundHalfEven_intCast]

theorem identify_notes_roundtrip_w :
    21 ≤ (69 : ℤ) ∧ (69 : ℤ) ≤ 108 ∧ midi_rounded (ideal_freq 69) = 69 :=
  ⟨by decide, by decide, identify_notes_roundtrip 69 (by decide) (by decide)⟩

/-- C6 (counterexample): at the geometric midpoint between MIDI 68 and 69
the continuous MIDI number is exactly 68.5; half-to-even rounding takes it
down to 68, so the cents deviation is exactly +50, outside the claimed
range of minus fifty inclusive to fifty exclusive. -/
theorem identify_notes_cents_range_ce :
    ¬ (-50 ≤ cents_off (440 * (2 : ℝ) ^ (-(1 : ℝ)/24)) ∧
       cents_off (440 * (2 : ℝ) ^ (-(1 : ℝ)/24)) < 50) := by
  have hmf : midi_float (440 * (2 : ℝ) ^ (-(1 : ℝ)/24)) = 137/2 := by
    unfold midi_float
    rw [mul_div_cancel_left₀ _ (by norm_num : (440 : ℝ) ≠ 0),
      Real.logb_rpow (by norm_num) (by norm_num)]
    norm_num
  have h68 : (137 : ℝ)/2 = (68 : ℤ) + 1/2 := by norm_num
  have hfr : Int.fract ((137 : ℝ)/2) = 1/2 := by
    rw [h68, Int.fract_int_add, Int.fract_eq_self.mpr (by norm_num)]
  have hfl : ⌊(137 : ℝ)/2⌋ = 68 := by
    rw [Int.floor_eq_iff] <;> norm_num
  have hre : roundHalfEven ((137 : ℝ)/2) = 68 := by
    unfold roundHalfEven
    rw [if_pos hfr, hfl, if_pos (by decide)]
  have hc : cents_off (440 * (2 : ℝ) ^ (-(1 : ℝ)/24)) = 50 := by
    unfold cents_off midi_rounded
    rw [hmf, hre]
    norm_num
  rw [hc]
  rintro ⟨-, h⟩
  exact lt_irrefl _ h

/-- C6 (amended): per frame, the rounded MIDI number is the half-to-even
rounding of the continuous one, the cents deviation is their difference
times 100 and lies in the closed interval from -50 to 50; an exact
half-semitone boundary yields +50 when the lower MIDI number is even and
-50 when it is odd. -/
theorem identify_notes_cents (f0 : ℝ) (hf : 0 < f0) :
    midi_rounded f0 = roundHalfEven (midi_float f0) ∧
    cents_off f0 = (midi_float f0 - (midi_rounded f0 : ℝ)) * 100 ∧
    -50 ≤ cents_off f0 ∧ cents_off f0 ≤ 50 ∧
    (Int.fract (midi_float f0) = 1/2 →
      (2 ∣ ⌊midi_float f0⌋ → cents_off f0 = 50) ∧
      (¬ 2 ∣ ⌊midi_float f0⌋ → cents_off f0 = -50)) := by
  have hb := sub_roundHalfEven_bounds (midi_float f0)
  refine ⟨rfl, rfl, ?_, ?_, ?_⟩
  · unfold cents_off midi_rounded
    linarith [hb.1]
  · unfold cents_off midi_rounded
    linarith [hb.2]
  · intro hf2
    constructor
    · intro he
      have h := roundHalfEven_half_even hf2 he
      unfold cents_off midi_rounded
      linarith
    · intro ho
      have h := roundHalfEven_half_odd hf2 ho
      unfold cents_off midi_rounded
      linarith

theorem identify_notes_cents_w :
    (0 : ℝ) < 440 ∧
    (midi_rounded 440 = roundHalfEven (midi_float 440) ∧
      cents_off 440 = (midi_float 440 - (midi_rounded 440 : ℝ)) * 100 ∧
      -50 ≤ cents_off 440 ∧ cents_off 440 ≤ 50 ∧
      (Int.fract (midi_float 440) = 1/2 →
        (2 ∣ ⌊midi_float 440⌋ → cents_off 440 = 50) ∧
        (¬ 2 ∣ ⌊midi_float 440⌋ → cents_off 440 = -50))) :=
  ⟨by norm_num, identify_notes_cents 440 (by norm_num)⟩

/-! ## Note Segmenter: `segment_notes` (src/audio_processing.py, lines 249-342)

The second onset detection (lines 255-270) and the nearest-frame snapping
(lines 273-277) produce the per-row `is_onset` marker, carried here as a
field of the input rows.  The rows also carry the columns written by
`identify_notes`; the note-name column is the function `note_name_of` of
the rounded MIDI column (lines 221-223).
-/

/-- The chromatic table `NOTE_NAMES` of line 206. -/
def NOTE_NAMES : List String :=
  ["C", "C#", "D", "D#", "E", "F"] ++ ["F#", "G", "G#", "A", "A#", "B"]

/-- Lines 221-223: pitch-class name indexed by `midi % 12` concatenated with
the octave `midi // 12 - 1` (Python floor division and nonnegative mod). -/
def note_name_of (midi : ℤ) : String :=
  NOTE_NAMES.getD (midi % 12).toNat "" ++ toString (midi.fdiv 12 - 1)

/-- One row of the DataFrame consumed by the segmentation walk: frame time,
gap-filled frequency, the `identify_notes` columns, and the `is_onset`
marker of lines 273-277. -/
structure NoteFrame where
  time_s : ℚ
  f0 : ℚ
  midi_rounded : ℤ
  cents_off : ℚ
  ideal_freq : ℚ
  is_onset : Bool
deriving Repr, DecidableEq, Inhabited

/-- The note-start test of lines 281-285 for a row given its predecessor:
a detected onset, or a rounded-MIDI jump of more than one semitone.  (The
first row's `diff` is NaN and `NaN > 1` is false, and the walk of line 291
starts at index 1, so the first row is never tested.) -/
def is_note_start (prev cur : NoteFrame) : Bool :=
  cur.is_onset || decide (1 < (cur.midi_rounded - prev.midi_rounded).natAbs)

/-- The loop of lines 291-310: `cur` is the run accumulated since the last
boundary; a note-start row emits it and opens a new run; the final run is
emitted after the loop (lines 313-326). -/
def segRunsAux (prev : NoteFrame) (cur : List NoteFrame) :
    List NoteFrame → List (List NoteFrame)
  | [] => [cur]
  | x :: xs =>
    if is_note_start prev x then cur :: segRunsAux x [x] xs
    else segRunsAux x (cur ++ [x]) xs

/-- The frame runs underlying the events of `segment_notes`: the walk
starts with the first frame (`current_note_start = 0`, line 289); an empty
frame table yields no events. -/
def segment_runs : List NoteFrame → List (List NoteFrame)
  | [] => []
  | x :: xs => segRunsAux x [x] xs

/-- Maximal multiplicity of a value in the list. -/
def maxCount (l : List String) : ℕ := (l.map (fun v => l.count v)).foldr max 0

/-- `Series.mode()[0]` with the `iloc[0]` fallback (lines 302 and 320):
pandas mode returns the values of maximal multiplicity sorted ascending,
and `[0]` selects the least of them; the fallback cannot trigger for a
non-empty run. -/
def mode_first (l : List String) : String :=
  ((l.dedup.filter (fun v => l.count v == maxCount l)).insertionSort (· ≤ ·)).headD
    (l.headD "")

/-- Arithmetic mean of a column over a run (lines 304-307). -/
def listMean (l : List ℚ) : ℚ := l.sum / l.length

/-- Python `int()`: truncation toward zero (lines 303 and 321). -/
def int_trunc (q : ℚ) : ℤ := if 0 ≤ q then ⌊q⌋ else ⌈q⌉

/-- One note event (the dictionary of lines 298-308 / 316-325). -/
structure NoteEvent where
  start_time : ℚ
  end_time : ℚ
  duration : ℚ
  note_name : String
  midi_number : ℤ
  avg_frequency : ℚ
  ideal_frequency : ℚ
  avg_cents_off : ℚ
  abs_avg_cents_off : ℚ
deriving Repr, DecidableEq, Inhabited

/-- The event aggregates of one run (lines 298-308 / 316-325). -/
def mkNoteEvent (run : List NoteFrame) : NoteEvent :=
  { start_time := (run.headD default).time_s
    end_time := (run.getLastD default).time_s
    duration := (run.getLastD default).time_s - (run.headD default).time_s
    note_name := mode_first (run.map (fun fr => note_name_of fr.midi_rounded))
    midi_number := int_trunc (npMedian (run.map (fun fr => (fr.midi_rounded : ℚ))))
    avg_frequency := listMean (run.map (fun fr => fr.f0))
    ideal_frequency := listMean (run.map (fun fr => fr.ideal_freq))
    avg_cents_off := listMean (run.map (fun fr => fr.cents_off))
    abs_avg_cents_off := listMean (run.map (fun fr => |fr.cents_off|)) }

/-- `segment_notes` restricted to its event list output (lines 288-328). -/
def segment_notes (frames : List NoteFrame) : List NoteEvent :=
  (segment_runs frames).map mkNoteEvent

/-! ### Helper lemmas for the segmentation walk -/

theorem segRunsAux_flatten (xs : List NoteFrame) :
    ∀ (prev : NoteFrame) (cur : List NoteFrame),
    (segRunsAux prev cur xs).flatten = cur ++ xs := by
  induction xs with
  | nil => intro prev cur; simp [segRunsAux]
  | cons x xs ih =>
    intro prev cur
    rw [segRunsAux]
    split
    · rw [List.flatten_cons, ih x [x]]
      simp
    · rw [ih x (cur ++ [x])]
      simp

theorem segRunsAux_ne_nil (xs : List NoteFrame) :
    ∀ prev cur, segRunsAux prev cur xs ≠ [] := by
  induction xs with
  | nil => intro prev cur; simp [segRunsAux]
  | cons x xs ih =>
    intro prev cur
    rw [segRunsAux]
    split
    · simp
    · exact ih x (cur ++ [x])

theorem segRunsAux_all_ne_nil (xs : List NoteFrame) :
    ∀ prev cur, cur ≠ [] → ∀ r ∈ segRunsAux prev cur xs, r ≠ [] := by
  induction xs with
  | nil =>
    intro prev cur hcur r hr
    rw [segRunsAux] at hr
    simp at hr
    rwa [hr]
  | cons x xs ih =>
    intro prev cur hcur r hr
    rw [segRunsAux] at hr
    split at hr
    · rcases List.mem_cons.mp hr with rfl | hr'
      · exact hcur
      · exact ih x [x] (by simp) r hr'
    · exact ih x (cur ++ [x]) (by simp) r hr

theorem segRunsAux_head (xs : List NoteFrame) :
    ∀ prev cur, cur ≠ [] →
    ((segRunsAux prev cur xs).headD []).head? = cur.head? := by
  induction xs with
  | nil => intro prev cur hcur; simp [segRunsAux]
  | cons x xs ih =>
    intro prev cur hcur
    rw [segRunsAux]
    split
    · simp
    · rw [ih x (cur ++ [x]) (by simp)]
      cases cur with
      | nil => exact absurd rfl hcur
      | cons c cs => simp

theorem segment_runs_all_ne_nil (frames : List NoteFrame) :
    ∀ r ∈ segment_runs frames, r ≠ [] := by
  cases frames with
  | nil => simp [segment_runs]
  | cons x xs => exact segRunsAux_all_ne_nil xs x [x] (by simp)

/-- C7: for a non-empty frame table the runs of the segmentation walk
concatenate back to exactly the input frames, in order (no gaps, no
overlaps, nothing dropped or duplicated); there is at least one run, every
run is non-empty (in particular the final partial run is emitted), the
first frame starts the first run, and the note events are exactly these
runs aggregated. -/
theorem segment_notes_totality (frames : List NoteFrame) (hne : frames ≠ []) :
    (segment_runs frames).flatten = frames ∧
    segment_runs frames ≠ [] ∧
    (∀ r ∈ segment_runs frames, r ≠ []) ∧
    ((segment_runs frames).headD []).head? = frames.head? ∧
    segment_notes frames = (segment_runs frames).map mkNoteEvent := by
  cases frames with
  | nil => exact absurd rfl hne
  | cons x xs =>
    refine ⟨?_, ?_, segment_runs_all_ne_nil _, ?_, rfl⟩
    · rw [show segment_runs (x :: xs) = segRunsAux x [x] xs from rfl,
        segRunsAux_flatten xs x [x]]
      rfl
    · exact segRunsAux_ne_nil xs x [x]
    · rw [show segment_runs (x :: xs) = segRunsAux x [x] xs from rfl,
        segRunsAux_head xs x [x] (by simp)]
      rfl

/-- A sample frame used to instantiate hypothesis-bearing theorems. -/
def sampleFrameA : NoteFrame :=
  { time_s := 0, f0 := 220, midi_rounded := 57, cents_off := 0,
    ideal_freq := 220, is_onset := false }

theorem segment_notes_totality_w :
    ([sampleFrameA] : List NoteFrame) ≠ [] ∧
    ((segment_runs [sampleFrameA]).flatten = [sampleFrameA] ∧
      segment_runs [sampleFrameA] ≠ [] ∧
      (∀ r ∈ segment_runs [sampleFrameA], r ≠ []) ∧
      ((segment_runs [sampleFrameA]).headD []).head? =
        ([sampleFrameA] : List NoteFrame).head? ∧
      segment_notes [sampleFrameA] = (segment_runs [sampleFrameA]).map mkNoteEvent) :=
  ⟨by decide, segment_notes_totality _ (by decide)⟩

theorem foldr_max_le (ns : List ℕ) : ∀ x ∈ ns, x ≤ ns.foldr max 0 := by
  induction ns with
  | nil => simp
  | cons n ns ih =>
    intro x hx
    rcases List.mem_cons.mp hx with rfl | hx
    · exact le_max_left _ _
    · exact le_trans (ih x hx) (le_max_right _ _)

theorem foldr_max_mem (ns : List ℕ) (h : ns ≠ []) : ns.foldr max 0 ∈ ns := by
  induction ns with
  | nil => exact absurd rfl h
  | cons n ns ih =>
    cases ns with
    | nil => simp
    | cons m ms =>
      rcases max_choice n ((m :: ms).foldr max 0) with hmax | hmax
      · rw [List.foldr_cons, hmax]
        exact List.mem_cons_self _ _
      · rw [List.foldr_cons, hmax]
        exact List.mem_cons_of_mem _ (ih (by simp))

theorem mode_first_spec (l : List String) (h : l ≠ []) :
    mode_first l ∈ l ∧
    (∀ v ∈ l, l.count v ≤ l.count (mode_first l)) ∧
    (∀ v ∈ l, l.count v = l.count (mode_first l) → mode_first l ≤ v) := by
  obtain ⟨w, hwl, hwc⟩ : ∃ v ∈ l, l.count v = maxCount l := by
    have hmem := foldr_max_mem (l.map (fun v => l.count v)) (by simpa using h)
    obtain ⟨v, hv, hc⟩ := List.mem_map.mp hmem
    exact ⟨v, hv, hc⟩
  have hwcand : w ∈ l.dedup.filter (fun v => l.count v == maxCount l) :=
    List.mem_filter.mpr ⟨List.mem_dedup.mpr hwl, by simpa using hwc⟩
  obtain ⟨m, ms, hms⟩ : ∃ m ms,
      (l.dedup.filter (fun v => l.count v == maxCount l)).insertionSort (· ≤ ·) =
        m :: ms := by
    cases hsort : (l.dedup.filter
        (fun v => l.count v == maxCount l)).insertionSort (· ≤ ·) with
    | nil =>
      exfalso
      have hp := List.perm_insertionSort (· ≤ ·)
        (l.dedup.filter (fun v => l.count v == maxCount l))
      rw [hsort] at hp
      rw [hp.symm.eq_nil] at hwcand
      simp at hwcand
    | cons a as => exact ⟨a, as, rfl⟩
  have hmode : mode_first l = m := by
    unfold mode_first
    rw [hms]
    rfl
  have hsorted := List.sorted_insertionSort (· ≤ ·)
    (l.dedup.filter (fun v => l.count v == maxCount l))
  rw [hms] at hsorted
  have hperm := List.perm_insertionSort (· ≤ ·)
    (l.dedup.filter (fun v => l.count v == maxCount l))
  rw [hms] at hperm
  have hm_cand : m ∈ l.dedup.filter (fun v => l.count v == maxCount l) :=
    hperm.subset (List.mem_cons_self m ms)
  have hm_l : m ∈ l := List.mem_dedup.mp (List.mem_filter.mp hm_cand).1
  have hm_cnt : l.count m = maxCount l := by
    have := (List.mem_filter.mp hm_cand).2
    simpa using this
  refine ⟨hmode ▸ hm_l, ?_, ?_⟩
  · intro v hv
    rw [hmode, hm_cnt]
    exact foldr_max_le _ _ (List.mem_map_of_mem _ hv)
  · intro v hv hvc
    rw [hmode] at hvc ⊢
    have hv_cand : v ∈ l.dedup.filter (fun u => l.count u == maxCount l) :=
      List.mem_filter.mpr ⟨List.mem_dedup.mpr hv, by simp [hvc, hm_cnt]⟩
    have hv_sort : v ∈ m :: ms := hperm.mem_iff.mpr hv_cand
    rcases List.mem_cons.mp hv_sort with rfl | hv_ms
    · exact le_refl _
    · exact List.rel_of_sorted_cons hsorted v hv_ms

/-- C8 (amended): the dominant note name of every event of `segment_notes`
is a statistical mode of the note names over the event's frame run, with a
tie broken by the least name in string order (pandas mode returns the modal
values sorted ascending and the code takes element 0), not by the
first-encountered value. -/
theorem segment_notes_dominant (frames run : List NoteFrame)
    (hrun : run ∈ segment_runs frames) :
    (mkNoteEvent run).note_name ∈
      run.map (fun fr => note_name_of fr.midi_rounded) ∧
    (∀ v ∈ run.map (fun fr => note_name_of fr.midi_rounded),
      (run.map (fun fr => note_name_of fr.midi_rounded)).count v ≤
        (run.map (fun fr => note_name_of fr.midi_rounded)).count
          (mkNoteEvent run).note_name) ∧
    (∀ v ∈ run.map (fun fr => note_name_of fr.midi_rounded),
      (run.map (fun fr => note_name_of fr.midi_rounded)).count v =
        (run.map (fun fr => note_name_of fr.midi_rounded)).count
          (mkNoteEvent run).note_name →
      (mkNoteEvent run).note_name ≤ v) := by
  have hne : run ≠ [] := segment_runs_all_ne_nil frames run hrun
  have hmapne : run.map (fun fr => note_name_of fr.midi_rounded) ≠ [] := by
    simpa using hne
  have hnn : (mkNoteEvent run).note_name =
      mode_first (run.map (fun fr => note_name_of fr.midi_rounded)) := rfl
  rw [hnn]
  exact mode_first_spec _ hmapne

/-- Second sample frame: one semitone above `sampleFrameA`, not an onset. -/
def sampleFrameB : NoteFrame :=
  { time_s := 1, f0 := 233, midi_rounded := 58, cents_off := 0,
    ideal_freq := 233, is_onset := false }

/-- C8 (counterexample): two frames named A3 then A#3 form a single run (a
one-semitone step is not a pitch-change boundary) whose name counts tie;
the event's dominant name is the sorted-first value A#3 (the hash sign
sorts before the digit 3), not the first-encountered A3. -/
theorem segment_notes_dominant_ce :
    (segment_notes [sampleFrameA, sampleFrameB]).map NoteEvent.note_name =
      ["A#3"] ∧
    ([sampleFrameA, sampleFrameB] : List NoteFrame).map
      (fun fr => note_name_of fr.midi_rounded) = ["A3", "A#3"] ∧
    ("A#3" : String) ≠ "A3" := by
  with_unfolding_all decide

theorem segment_notes_dominant_w :
    [sampleFrameA] ∈ segment_runs [sampleFrameA] ∧
    ((mkNoteEvent [sampleFrameA]).note_name ∈
        [sampleFrameA].map (fun fr => note_name_of fr.midi_rounded) ∧
      (∀ v ∈ [sampleFrameA].map (fun fr => note_name_of fr.midi_rounded),
        ([sampleFrameA].map (fun fr => note_name_of fr.midi_rounded)).count v ≤
          ([sampleFrameA].map (fun fr => note_name_of fr.midi_rounded)).count
            (mkNoteEvent [sampleFrameA]).note_name) ∧
      (∀ v ∈ [sampleFrameA].map (fun fr => note_name_of fr.midi_rounded),
        ([sampleFrameA].map (fun fr => note_name_of fr.midi_rounded)).count v =
          ([sampleFrameA].map (fun fr => note_name_of fr.midi_rounded)).count
            (mkNoteEvent [sampleFrameA]).note_name →
        (mkNoteEvent [sampleFrameA]).note_name ≤ v)) :=
  ⟨by decide, segment_notes_dominant [sampleFrameA] [sampleFrameA] (by decide)⟩

/-! ## Timing Scorer: `calculate_timing_accuracy`

`calculate_timing_accuracy` is imported from `audio_processing` by
`handlers/analysis.py` (line 16) and `bot.py` (line 16) and called at
`handlers/analysis.py` line 182, but its definition is absent from the
sources; it is modelled here from the specification alone.
-/

/-- Per-event annotation of the Timing Scorer: signed offset of the event
start from its nearest beat, in milliseconds, and the on-beat flag. -/
structure TimingEntry where
  timing_offset_ms : ℚ
  on_beat : Bool
deriving Repr, DecidableEq, Inhabited

/-- Modelled from the spec: the nearest beat time to an event start, by
minimum absolute difference (first such beat on a tie).  Part of the
missing `calculate_timing_accuracy`. -/
def nearest_beat (t : ℚ) (beat_times : List ℚ) : ℚ :=
  beat_times.foldl (fun best b => if |t - b| < |t - best| then b else best)
    (beat_times.headD 0)

/-- Modelled from the spec: `calculate_timing_accuracy`, absent from the
sources.  Given the event start times and the beat sequence, annotate each
event with the signed offset (in milliseconds) from its nearest beat and an
on-beat flag under the configurable millisecond tolerance; fail gracefully
(`none`, i.e. success false, rather than raising) on an empty beat
sequence. -/
def calculate_timing_accuracy (tol_ms : ℚ) (note_starts beat_times : List ℚ) :
    Option (List TimingEntry) :=
  if beat_times.isEmpty then none
  else some (note_starts.map (fun t =>
    { timing_offset_ms := (t - nearest_beat t beat_times) * 1000
      on_beat := decide (|(t - nearest_beat t beat_times) * 1000| ≤ tol_ms) }))

theorem nearest_beat_foldl (t : ℚ) :
    ∀ (l : List ℚ) (best : ℚ),
    (l.foldl (fun b c => if |t - c| < |t - b| then c else b) best = best ∨
      l.foldl (fun b c => if |t - c| < |t - b| then c else b) best ∈ l) ∧
    |t - l.foldl (fun b c => if |t - c| < |t - b| then c else b) best| ≤ |t - best| ∧
    (∀ b ∈ l, |t - l.foldl (fun b2 c => if |t - c| < |t - b2| then c else b2) best| ≤
      |t - b|) := by
  intro l
  induction l with
  | nil => intro best; refine ⟨Or.inl rfl, le_refl _, by simp⟩
  | cons c l ih =>
    intro best
    rw [List.foldl_cons]
    by_cases hc : |t - c| < |t - best|
    · rw [if_pos hc]
      obtain ⟨hmem, hle, hall⟩ := ih c
      refine ⟨?_, ?_, ?_⟩
      · rcases hmem with h | h
        · exact Or.inr (by simp [h])
        · exact Or.inr (List.mem_cons_of_mem _ h)
      · exact le_trans hle (le_of_lt hc)
      · intro b hb
        rcases List.mem_cons.mp hb with rfl | hb'
        · exact hle
        · exact hall b hb'
    · rw [if_neg hc]
      push_neg at hc
      obtain ⟨hmem, hle, hall⟩ := ih best
      refine ⟨?_, ?_, ?_⟩
      · rcases hmem with h | h
        · exact Or.inl h
        · exact Or.inr (List.mem_cons_of_mem _ h)
      · exact hle
      · intro b hb
        rcases List.mem_cons.mp hb with rfl | hb'
        · exact le_trans hle hc
        · exact hall b hb'

theorem nearest_beat_spec (t : ℚ) (beat_times : List ℚ) (h : beat_times ≠ []) :
    nearest_beat t beat_times ∈ beat_times ∧
    ∀ b ∈ beat_times, |t - nearest_beat t beat_times| ≤ |t - b| := by
  cases beat_times with
  | nil => exact absurd rfl h
  | cons b0 bs =>
    obtain ⟨hmem, hle, hall⟩ := nearest_beat_foldl t (b0 :: bs) ((b0 :: bs).headD 0)
    constructor
    · rcases hmem with heq | hmem'
      · rw [nearest_beat, heq]
        simp
      · exact hmem'
    · intro b hb
      exact hall b hb

/-- C1 (spec-modelled): with a non-empty beat sequence each event is
annotated with the signed millisecond offset from a beat of minimum
absolute time difference and an on-beat flag testing that offset against
the tolerance; with an empty beat sequence the scorer returns a non-fatal
failure (`none`) instead of raising. -/
theorem calculate_timing_accuracy_spec (tol_ms : ℚ)
    (note_starts beat_times : List ℚ) :
    (beat_times = [] → calculate_timing_accuracy tol_ms note_starts beat_times = none) ∧
    (beat_times ≠ [] → ∃ es,
      calculate_timing_accuracy tol_ms note_starts beat_times = some es ∧
      es.length = note_starts.length ∧
      ∀ k, k < note_starts.length →
        ∃ b ∈ beat_times,
          (∀ b2 ∈ beat_times,
            |note_starts.getD k 0 - b| ≤ |note_starts.getD k 0 - b2|) ∧
          (es.getD k default).timing_offset_ms = (note_starts.getD k 0 - b) * 1000 ∧
          ((es.getD k default).on_beat = true ↔
            |(es.getD k default).timing_offset_ms| ≤ tol_ms)) := by
  constructor
  · intro hnil
    rw [calculate_timing_accuracy, if_pos (by simp [hnil])]
  · intro hne
    refine ⟨(note_starts.map (fun t =>
      { timing_offset_ms := (t - nearest_beat t beat_times) * 1000
        on_beat := decide (|(t - nearest_beat t beat_times) * 1000| ≤ tol_ms) })),
      ?_, by simp, ?_⟩
    · rw [calculate_timing_accuracy,
        if_neg (by simpa using hne)]
    · intro k hk
      obtain ⟨hmem, hmin⟩ := nearest_beat_spec (note_starts.getD k 0) beat_times hne
      refine ⟨nearest_beat (note_starts.getD k 0) beat_times, hmem, hmin, ?_, ?_⟩
      · rw [List.getD_eq_getElem _ _ (by simpa using hk), List.getElem_map,
          List.getD_eq_getElem _ _ hk]
      · rw [List.getD_eq_getElem _ _ (by simpa using hk), List.getElem_map]
        simp

theorem calculate_timing_accuracy_spec_w :
    calculate_timing_accuracy 100 [1/2] [] = none ∧
    (∃ es, calculate_timing_accuracy 100 [1/2] [0, 1] = some es ∧
      es.length = ([1/2] : List ℚ).length ∧
      ∀ k, k < ([1/2] : List ℚ).length →
        ∃ b ∈ ([0, 1] : List ℚ),
          (∀ b2 ∈ ([0, 1] : List ℚ),
            |([1/2] : List ℚ).getD k 0 - b| ≤ |([1/2] : List ℚ).getD k 0 - b2|) ∧
          (es.getD k default).timing_offset_ms =
            (([1/2] : List ℚ).getD k 0 - b) * 1000 ∧
          ((es.getD k default).on_beat = true ↔
            |(es.getD k default).timing_offset_ms| ≤ 100)) :=
  ⟨(calculate_timing_accuracy_spec 100 [1/2] []).1 rfl,
    (calculate_timing_accuracy_spec 100 [1/2] [0, 1]).2 (by simp)⟩
